import Mathlib

set_option maxRecDepth 8192

/-!
Shallow embedding of the herakles-node-exporter core in Lean 4, together with
proofs checking the natural-language specification against the code.

Conventions used throughout:
* Rust `u64`/`usize` arithmetic is modelled on `Nat` with an explicit `% U64`
  wherever the source performs wrapping machine arithmetic.
* Rust `f64`/`f32` values that the claims reason about exactly (CPU seconds,
  timestamps, percentages) are modelled with `Rat`; the `/proc` text fields in
  question are decimal integers, on which the modelled parse agrees with the
  floating-point one.
* File contents are modelled as lists of lines, each line a `List Char`;
  process and group names as `String` or `List Char` as convenient.
-/

/-- Modulus of Rust `u64` / 64-bit `usize` arithmetic. -/
def U64 : Nat := 2 ^ 64

/-- Models Rust `str::strip_prefix` on character lists: returns the remainder
of the line after the given literal, or `none` when the line does not start
with it. -/
def stripPrefixCh : List Char → List Char → Option (List Char)
  | [], l => some l
  | _ :: _, [] => none
  | p :: ps, c :: cs => if p = c then stripPrefixCh ps cs else none

/-- Auxiliary worker for `splitWs`, carrying the (reversed) current word. -/
def splitWsAux : List Char → List Char → List (List Char)
  | [], acc => if acc.isEmpty then [] else [acc.reverse]
  | c :: cs, acc =>
    if c.isWhitespace then
      if acc.isEmpty then splitWsAux cs [] else acc.reverse :: splitWsAux cs []
    else splitWsAux cs (c :: acc)

/-- Models Rust `str::split_whitespace`: the maximal non-whitespace words of a
line, in order, with no empty words. -/
def splitWs (l : List Char) : List (List Char) := splitWsAux l []

/-- Numeric value of a decimal digit string. -/
def digitsVal (l : List Char) : Nat := l.foldl (fun n c => n * 10 + (c.toNat - 48)) 0

/-- Models Rust `u64::from_str` (`"…".parse::<u64>()`): an optional leading
`+`, then one or more ASCII digits, and the value must fit in 64 bits. -/
def parseU64Ch (l : List Char) : Option Nat :=
  let l' := match l with
    | '+' :: rest => rest
    | _ => l
  if l'.isEmpty then none
  else if l'.all Char.isDigit then
    if digitsVal l' < U64 then some (digitsVal l') else none
  else none

/-- memory.rs `parse_kb_value`: parse the first whitespace-separated token of
the remainder of an smaps line as a `u64`. -/
def parse_kb_value (v : List Char) : Option Nat :=
  match splitWs v with
  | [] => none
  | t :: _ => parseU64Ch t

/-- `parse_kb_value … .unwrap_or(0)` as used by both smaps parsers. -/
def kbOr0 (v : List Char) : Nat := (parse_kb_value v).getD 0

/-- Accumulator of the smaps / smaps_rollup line loop (the four local `u64`
counters `rss_kb`, `pss_kb`, `private_clean_kb`, `private_dirty_kb`). -/
structure SmapsAcc where
  rss : Nat
  pss : Nat
  pc : Nat
  pd : Nat
deriving Repr, DecidableEq

/-- One iteration of the line loop shared by memory.rs `parse_smaps` and
`parse_smaps_rollup`: an `if let Some(v) = l.strip_prefix(…)` chain over the
four field prefixes, accumulating with wrapping `u64` addition. -/
def smapsStep (a : SmapsAcc) (l : List Char) : SmapsAcc :=
  match stripPrefixCh "Rss:".toList l with
  | some v => { a with rss := (a.rss + kbOr0 v) % U64 }
  | none =>
    match stripPrefixCh "Pss:".toList l with
    | some v => { a with pss := (a.pss + kbOr0 v) % U64 }
    | none =>
      match stripPrefixCh "Private_Clean:".toList l with
      | some v => { a with pc := (a.pc + kbOr0 v) % U64 }
      | none =>
        match stripPrefixCh "Private_Dirty:".toList l with
        | some v => { a with pd := (a.pd + kbOr0 v) % U64 }
        | none => a

/-- memory.rs `parse_smaps`: sum the four field kinds over all lines and
convert the kB totals to bytes with wrapping `u64` multiplication by 1024. -/
def parse_smaps (lines : List (List Char)) : Nat × Nat × Nat :=
  let a := lines.foldl smapsStep ⟨0, 0, 0, 0⟩
  ((a.rss * 1024) % U64, (a.pss * 1024) % U64, (((a.pc + a.pd) % U64) * 1024) % U64)

/-- memory.rs `parse_smaps_rollup`: textually the same accumulation as
`parse_smaps` (the source duplicates the loop with different local names). -/
def parse_smaps_rollup (lines : List (List Char)) : Nat × Nat × Nat :=
  let a := lines.foldl smapsStep ⟨0, 0, 0, 0⟩
  ((a.rss * 1024) % U64, (a.pss * 1024) % U64, (((a.pc + a.pd) % U64) * 1024) % U64)

/-- memory.rs `parse_memory_for_process`: prefer `smaps_rollup` when that file
exists, otherwise parse `smaps`; an absent file is the I/O error case. The
two `Option` arguments model presence/contents of the two files. -/
def parse_memory_for_process (rollup smaps : Option (List (List Char))) :
    Except Unit (Nat × Nat × Nat) :=
  match rollup with
  | some content => .ok (parse_smaps_rollup content)
  | none =>
    match smaps with
    | some content => .ok (parse_smaps content)
    | none => .error ()

/-- Specification-side reading of one smaps line: the kB value contributed to
the sum for prefix `p` (0 when the line is not a `p` line). -/
def fieldKb (p : String) (l : List Char) : Nat :=
  match stripPrefixCh p.toList l with
  | some v => kbOr0 v
  | none => 0

/-- Specification-side sum of the values of all `p`-prefixed lines. -/
def sumKb (p : String) (lines : List (List Char)) : Nat :=
  (lines.map (fieldKb p)).sum

/-- The fake smaps content of round-trip scenario R1 / S1 of the spec. -/
def smapsLinesEx : List (List Char) :=
  ["Rss:                 100 kB", "Pss:                  80 kB",
   "Private_Clean:        40 kB", "Private_Dirty:        20 kB"].map String.toList

/-- cpu.rs `CpuStat` (the two `f64` fields modelled with `Rat`). -/
structure CpuStat where
  cpu_percent : Rat
  cpu_time_seconds : Rat
deriving Repr, DecidableEq

/-- cpu.rs `CpuEntry`: a cached `CpuStat` plus the `Instant` of its sample
(instants modelled as rational seconds from an arbitrary origin). -/
structure CpuEntry where
  stat : CpuStat
  last_updated : Rat
deriving Repr, DecidableEq

/-- cpu.rs `get_cpu_stat_for_pid`, as a pure function of the PID's current
cache entry, the freshly parsed cumulative CPU time, and the current instant.
It returns the `CpuStat` result together with the entry stored back into the
cache. `Instant::duration_since` saturates at zero, hence the `max _ 0`. -/
def get_cpu_stat_for_pid (prior : Option CpuEntry) (cpu_time_seconds now : Rat) :
    CpuStat × CpuEntry :=
  let cpu_percent :=
    match prior with
    | some entry =>
      let dt := max (now - entry.last_updated) 0
      if 0 < dt then
        let delta_cpu := cpu_time_seconds - entry.stat.cpu_time_seconds
        if 0 < delta_cpu then delta_cpu / dt * 100 else 0
      else 0
    | none => 0
  let stat : CpuStat := ⟨cpu_percent, cpu_time_seconds⟩
  (stat, ⟨stat, now⟩)

/-- Models Rust `f64::from_str` restricted to the decimal-integer tokens that
occur in `/proc/[pid]/stat` (any other token parses to `none`, which the
caller turns into 0 via `.unwrap_or(0.0)`). -/
def parseNumTokQ (l : List Char) : Option Rat :=
  if ¬l.isEmpty ∧ l.all Char.isDigit then some ((digitsVal l : Nat) : Rat) else none

/-- cpu.rs `parse_cpu_time_seconds`: split the whole stat content on
whitespace, error when at most 14 tokens, then read utime and stime at token
indices 13 and 14 and divide their sum by the clock-tick rate. -/
def parse_cpu_time_seconds (content : List Char) (clk : Rat) : Except Unit Rat :=
  let parts := splitWs content
  if parts.length ≤ 14 then .error ()
  else
    let utime := (parseNumTokQ (parts.getD 13 [])).getD 0
    let stime := (parseNumTokQ (parts.getD 14 [])).getD 0
    .ok ((utime + stime) / clk)

/-- The suffix of a stat line after the final `)` (the parenthesis closing the
comm field). -/
def afterCommCh (content : List Char) : List Char :=
  (content.reverse.takeWhile (fun c => c ≠ ')')).reverse

/-- Claim-side reading of the stat CPU fields, following the claim's words:
fields 14 (utime) and 15 (stime) located after the closing `)` of comm. The
first token after `)` is field 3, so utime and stime are the tokens at
indices 11 and 12 of the remainder. -/
def spec_cpu_time_seconds (content : List Char) (clk : Rat) : Option Rat :=
  let rest := splitWs (afterCommCh content)
  match parseU64Ch (rest.getD 11 []), parseU64Ch (rest.getD 12 []) with
  | some u, some s => some (((u : Nat) + (s : Nat) : Nat) / clk)
  | _, _ => none

/-- A well-formed stat content whose comm field (`(a b)`) contains a space. -/
def statContentSpace : List Char :=
  "1234 (a b) S 1 2 3 4 5 6 7 8 9 10 11 12 13 14 15 16 17 18 19 20".toList

/-- A well-formed stat content whose comm has no space: utime = 100 ticks,
stime = 50 ticks, starttime (field 22) = 4000 jiffies. -/
def statContentNoSpace : List Char :=
  "1234 (nginx) S 3 4 5 6 7 8 9 10 11 12 100 50 0 0 20 0 1 0 4000 12345".toList

/-- cpu.rs `parse_start_time_seconds`: reads stat field 22 (token index 21),
then returns `system_uptime − starttime / CLK_TCK` — the process age — with
the system uptime (read from `/proc/uptime`, `unwrap_or(0.0)`) passed in. -/
def parse_start_time_seconds (content : List Char) (system_uptime clk : Rat) :
    Except Unit Rat :=
  let parts := splitWs content
  if parts.length ≤ 21 then .error ()
  else
    match parseU64Ch (parts.getD 21 []) with
    | none => .error ()
    | some starttime => .ok (system_uptime - (starttime : Nat) / clk)

/-- Claim-side start time, following the claim's words (and the Rust
function's own doc comment): stat field 22 (starttime in jiffies) divided by
the clock-tick rate, i.e. seconds since system boot. -/
def spec_start_time_seconds (content : List Char) (clk : Rat) : Option Rat :=
  match parseU64Ch ((splitWs content).getD 21 []) with
  | none => none
  | some starttime => some ((starttime : Nat) / clk)

/-- ringbuffer.rs `Ringbuffer`, generic in the entry type (the source stores
`RingbufferEntry`; `push` and `get_history` never inspect the entries). -/
structure Ringbuffer (α : Type) where
  entries : List α
  capacity : Nat
  write_index : Nat
  count : Nat

/-- ringbuffer.rs `Ringbuffer::new`: a vector of `capacity` default-valued
slots (the source resizes with `RingbufferEntry::default()`, passed as `d`),
write index 0, count 0. -/
def Ringbuffer.new (d : α) (capacity : Nat) : Ringbuffer α :=
  { entries := List.replicate capacity d, capacity := capacity,
    write_index := 0, count := 0 }

/-- ringbuffer.rs `Ringbuffer::push`, the slot write modelled by `List.set`. -/
def Ringbuffer.push (rb : Ringbuffer α) (e : α) : Ringbuffer α :=
  { rb with
    entries := rb.entries.set rb.write_index e
    write_index := (rb.write_index + 1) % rb.capacity
    count := if rb.count < rb.capacity then rb.count + 1 else rb.count }

/-- ringbuffer.rs `Ringbuffer::push` including the panic behaviour of
`self.entries[self.write_index] = entry`: `none` models the out-of-bounds
panic, reached exactly when `write_index ≥ entries.len()`. -/
def Ringbuffer.pushChecked (rb : Ringbuffer α) (e : α) : Option (Ringbuffer α) :=
  if rb.write_index < rb.entries.length then some (rb.push e) else none

/-- ringbuffer.rs `Ringbuffer::get_history`: all stored entries oldest
first, rotating at `write_index` once the buffer is full. -/
def Ringbuffer.get_history (rb : Ringbuffer α) : List α :=
  if rb.count = 0 then []
  else if rb.count < rb.capacity then rb.entries.take rb.count
  else rb.entries.drop rb.write_index ++ rb.entries.take rb.write_index

/-- ringbuffer.rs `Ringbuffer::len`. -/
def Ringbuffer.len (rb : Ringbuffer α) : Nat := rb.count

/-- A sequence of pushes. -/
def Ringbuffer.pushAll (rb : Ringbuffer α) (xs : List α) : Ringbuffer α :=
  xs.foldl Ringbuffer.push rb

/-- A sequence of panic-aware pushes, propagating a panic as `none`. -/
def Ringbuffer.pushAllChecked : Ringbuffer α → List α → Option (Ringbuffer α)
  | rb, [] => some rb
  | rb, x :: xs =>
    match rb.pushChecked x with
    | some rb' => Ringbuffer.pushAllChecked rb' xs
    | none => none

/-- Data-structure invariant of a reachable ring buffer of positive
capacity. -/
structure RBInv (rb : Ringbuffer α) : Prop where
  len_eq : rb.entries.length = rb.capacity
  count_le : rb.count ≤ rb.capacity
  wi_lt : rb.write_index < rb.capacity
  wi_eq : rb.count < rb.capacity → rb.write_index = rb.count

/-- ringbuffer.rs `TopProcessInfo` (the 16-byte null-terminated name array is
modelled as the truncated character list). -/
structure TopProcessInfo where
  pid : Nat
  value : Nat
  name : List Char
deriving Repr, DecidableEq

/-- ringbuffer.rs `TopProcessInfo::new`: truncate the name to 15 bytes. -/
def TopProcessInfo.mk' (pid value : Nat) (name : List Char) : TopProcessInfo :=
  ⟨pid, value, name.take 15⟩

/-- ringbuffer.rs `TopProcessInfo::default()`: PID 0, value 0, empty name. -/
def TopProcessInfo.defaultInfo : TopProcessInfo := ⟨0, 0, []⟩

/-- ringbuffer.rs `RingbufferEntry` (`f32` fields modelled with `Rat`, the
three top-3 arrays as 3-element lists). -/
structure RingbufferEntry where
  timestamp : Int
  rss_kb : Nat
  pss_kb : Nat
  uss_kb : Nat
  cpu_percent : Rat
  cpu_time_seconds : Rat
  top_cpu : List TopProcessInfo
  top_rss : List TopProcessInfo
  top_pss : List TopProcessInfo
deriving Repr, DecidableEq

/-- `RingbufferEntry::default()` (derived `Default`: all zeros). -/
def RingbufferEntry.defaultEntry : RingbufferEntry :=
  ⟨0, 0, 0, 0, 0, 0, List.replicate 3 TopProcessInfo.defaultInfo,
   List.replicate 3 TopProcessInfo.defaultInfo,
   List.replicate 3 TopProcessInfo.defaultInfo⟩

/-- config.rs `RingbufferConfig`. -/
structure RingbufferConfig where
  max_memory_mb : Nat
  interval_seconds : Nat
  min_entries_per_subgroup : Nat
  max_entries_per_subgroup : Nat
deriving Repr, DecidableEq

/-- config.rs defaults: 15 MB budget, 30 s interval, 10–120 entries. -/
def RingbufferConfig.defaultConfig : RingbufferConfig := ⟨15, 30, 10, 120⟩

/-- ringbuffer.rs `ENTRY_SIZE_BYTES`. -/
def ENTRY_SIZE_BYTES : Nat := 256

/-- ringbuffer_manager.rs `RingbufferStats`. -/
structure RingbufferStats where
  max_memory_mb : Nat
  entry_size_bytes : Nat
  interval_seconds : Nat
  entries_per_subgroup : Nat
  total_subgroups : Nat
  estimated_ram_bytes : Nat
  history_seconds : Nat
deriving Repr, DecidableEq

/-- Association-list lookup, modelling `DashMap::get`. -/
def assocGet {β : Type} : List (String × β) → String → Option β
  | [], _ => none
  | (k', v) :: rest, k => if k = k' then some v else assocGet rest k

/-- Association-list insert-or-replace, modelling `DashMap::entry` +
in-place mutation; keys stay unique. -/
def assocUpd {β : Type} : List (String × β) → String → β → List (String × β)
  | [], k, v => [(k, v)]
  | (k', v') :: rest, k, v =>
    if k = k' then (k, v) :: rest else (k', v') :: assocUpd rest k v

/-- ringbuffer_manager.rs `RingbufferManager`; the `DashMap` is an
association list with unique keys. -/
structure RingbufferManager where
  buffers : List (String × Ringbuffer RingbufferEntry)
  entries_per_subgroup : Nat
  interval_seconds : Nat
  config : RingbufferConfig
  estimated_ram_bytes : Nat

/-- ringbuffer_manager.rs `RingbufferManager::new`: derive the per-subgroup
entry count from the memory budget clamped to the configured bounds
(`usize` arithmetic wraps at 2^64). -/
def RingbufferManager.new (config : RingbufferConfig)
    (initial_subgroup_count : Nat) : RingbufferManager :=
  let max_bytes := config.max_memory_mb * 1024 * 1024 % U64
  let max_total_entries := max_bytes / ENTRY_SIZE_BYTES
  let subgroup_count := max initial_subgroup_count 1
  let calculated_entries := max_total_entries / subgroup_count
  let entries_per_subgroup :=
    min (max calculated_entries config.min_entries_per_subgroup)
      config.max_entries_per_subgroup
  let estimated_ram_bytes :=
    entries_per_subgroup * ENTRY_SIZE_BYTES % U64 * subgroup_count % U64
  { buffers := []
    entries_per_subgroup := entries_per_subgroup
    interval_seconds := config.interval_seconds
    config := config
    estimated_ram_bytes := estimated_ram_bytes }

/-- ringbuffer_manager.rs `RingbufferManager::record`:
`buffers.entry(key).or_insert_with(|| Ringbuffer::new(E)).push(entry)`. -/
def RingbufferManager.record (m : RingbufferManager) (subgroup : String)
    (entry : RingbufferEntry) : RingbufferManager :=
  let rb := match assocGet m.buffers subgroup with
    | some rb => rb
    | none => Ringbuffer.new RingbufferEntry.defaultEntry m.entries_per_subgroup
  { m with buffers := assocUpd m.buffers subgroup (rb.push entry) }

/-- ringbuffer_manager.rs `RingbufferManager::get_stats`. -/
def RingbufferManager.get_stats (m : RingbufferManager) : RingbufferStats :=
  { max_memory_mb := m.config.max_memory_mb
    entry_size_bytes := ENTRY_SIZE_BYTES
    interval_seconds := m.interval_seconds
    entries_per_subgroup := m.entries_per_subgroup
    total_subgroups := m.buffers.length
    estimated_ram_bytes := m.estimated_ram_bytes
    history_seconds := m.entries_per_subgroup * m.interval_seconds % U64 }

/-- A sequence of `record` calls against one manager. -/
def RingbufferManager.recordAll (m : RingbufferManager) :
    List (String × RingbufferEntry) → RingbufferManager
  | [] => m
  | (k, e) :: ops => (m.record k e).recordAll ops

/-- classifier.rs `SubgroupsMap`: command name → (group, subgroup),
modelled as an association list. -/
abbrev SubgroupsMap := List (String × (String × String))

/-- classifier.rs `classify_process_raw`: table lookup with the
`("other", "unknown")` fallback. -/
def classify_process_raw (table : SubgroupsMap) (process_name : String) :
    String × String :=
  (assocGet table process_name).getD ("other", "unknown")

/-- Rust `str::eq_ignore_ascii_case`; Lean's `Char.toLower` lowers exactly
the ASCII range, matching the Rust semantics. -/
def eqIgnoreAsciiCase (a b : String) : Bool :=
  a.toList.map Char.toLower == b.toList.map Char.toLower

/-- config.rs `Config`, restricted to the fields the classifier consults. -/
structure Config where
  disable_others : Option Bool
  search_mode : Option String
  search_groups : Option (List String)
  search_subgroups : Option (List String)
deriving Repr, DecidableEq

/-- classifier.rs `classify_process_with_config` lines 120–142: the local
`allowed` flag from the include/exclude search mode. -/
def searchAllowed (cfg : Config) (gs : String × String) : Bool :=
  let mode := cfg.search_mode.getD "none"
  let groupMatch := (cfg.search_groups.map (fun v => v.any (· = gs.1))).getD false
  let subgroupMatch := (cfg.search_subgroups.map (fun v => v.any (· = gs.2))).getD false
  if mode = "include" then groupMatch || subgroupMatch
  else if mode = "exclude" then !(groupMatch || subgroupMatch)
  else true

/-- classifier.rs `classify_process_with_config`: `disable_others`, the
include/exclude search filters, then normalisation of any surviving
`other`-group pair to `("other", "other")`. -/
def classify_process_with_config (table : SubgroupsMap) (process_name : String)
    (cfg : Config) : Option (String × String) :=
  let gs := classify_process_raw table process_name
  let disableOthers := cfg.disable_others.getD false
  if disableOthers ∧ gs.1 = "other" then none
  else if !searchAllowed cfg gs then none
  else if eqIgnoreAsciiCase gs.1 "other" then some ("other", "other")
  else some gs

/-- cache.rs `ProcMem`, restricted to the fields the aggregations read
(floats as `Rat`; the I/O-delta fields are not consulted by any claim). -/
structure ProcMem where
  pid : Nat
  name : String
  rss : Nat
  pss : Nat
  uss : Nat
  cpu_percent : Rat
  cpu_time_seconds : Rat
  vmswap : Nat
deriving Repr, DecidableEq

/-- cache_updater.rs `AggregatedData`. -/
structure AggregatedData where
  rss_sum : Nat
  pss_sum : Nat
  uss_sum : Nat
  cpu_percent_sum : Rat
  cpu_time_sum : Rat
  process_count : Nat
deriving Repr, DecidableEq

/-- Rust `f32 as u32` (saturating: negatives to 0, large values to
`u32::MAX`; truncation toward zero). -/
def f32ToU32 (q : Rat) : Nat := min (max ⌊q⌋ 0).toNat (2 ^ 32 - 1)

/-- Rust `u64 as u32` (bit truncation). -/
def u64ToU32 (n : Nat) : Nat := n % 2 ^ 32

/-- cache_updater.rs `extract_top_3`: stable sort by the comparator and fill
three slots, padding with `TopProcessInfo::default()`. -/
def extract_top_3 (procs : List ProcMem) (le : ProcMem → ProcMem → Bool)
    (value : ProcMem → Nat) : List TopProcessInfo :=
  let infos := (procs.mergeSort le).map
    (fun p => TopProcessInfo.mk' p.pid (value p) p.name.toList)
  [infos.getD 0 TopProcessInfo.defaultInfo, infos.getD 1 TopProcessInfo.defaultInfo,
   infos.getD 2 TopProcessInfo.defaultInfo]

/-- cache_updater.rs `update_cache` lines 381–383: the ring aggregation key is
`format!("{}:{}", group, subgroup)` from `classify_process_raw` — the raw
classification, not `classify_process_with_config`. -/
def ringKey (table : SubgroupsMap) (p : ProcMem) : String :=
  let gs := classify_process_raw table p.name
  gs.1 ++ ":" ++ gs.2

/-- One step of the `for p in &results` ring aggregation loop of
`update_cache` (the `u64` sums wrap). -/
def aggStep (table : SubgroupsMap) (acc : List (String × AggregatedData))
    (p : ProcMem) : List (String × AggregatedData) :=
  let key := ringKey table p
  let agg := (assocGet acc key).getD ⟨0, 0, 0, 0, 0, 0⟩
  assocUpd acc key
    ⟨(agg.rss_sum + p.rss) % U64, (agg.pss_sum + p.pss) % U64,
     (agg.uss_sum + p.uss) % U64, agg.cpu_percent_sum + p.cpu_percent,
     agg.cpu_time_sum + p.cpu_time_seconds, agg.process_count + 1⟩

/-- cache_updater.rs `update_cache`: the per-subgroup aggregation over all
refresh results that feeds the ring records. -/
def aggregateForRing (table : SubgroupsMap) (results : List ProcMem) :
    List (String × AggregatedData) :=
  results.foldl (aggStep table) []

/-- The set of subgroup keys for which `update_cache` records a ring entry. -/
def recordedRingKeys (table : SubgroupsMap) (results : List ProcMem) : List String :=
  (aggregateForRing table results).map Prod.fst

/-- cache_updater.rs `update_cache` lines 447–458: the `RingbufferEntry`
recorded for one subgroup from its aggregate and member processes. -/
def buildRingEntry (timestamp : Int) (agg : AggregatedData)
    (procs : List ProcMem) : RingbufferEntry :=
  { timestamp := timestamp
    rss_kb := agg.rss_sum / 1024
    pss_kb := agg.pss_sum / 1024
    uss_kb := agg.uss_sum / 1024
    cpu_percent := agg.cpu_percent_sum
    cpu_time_seconds := agg.cpu_time_sum
    top_cpu := extract_top_3 procs (fun a b => b.cpu_percent ≤ a.cpu_percent)
      (fun p => f32ToU32 (p.cpu_percent * 1000))
    top_rss := extract_top_3 procs (fun a b => b.rss ≤ a.rss)
      (fun p => u64ToU32 (p.rss / 1024))
    top_pss := extract_top_3 procs (fun a b => b.pss ≤ a.pss)
      (fun p => u64ToU32 (p.pss / 1024)) }

/-- The per-sample update applied to a key's aggregate. -/
def aggAdd (agg : AggregatedData) (p : ProcMem) : AggregatedData :=
  ⟨(agg.rss_sum + p.rss) % U64, (agg.pss_sum + p.pss) % U64,
   (agg.uss_sum + p.uss) % U64, agg.cpu_percent_sum + p.cpu_percent,
   agg.cpu_time_sum + p.cpu_time_seconds, agg.process_count + 1⟩

/-- Specification-side aggregate of a list of samples (fold of `aggAdd`). -/
def aggOfList (ps : List ProcMem) : AggregatedData :=
  ps.foldl aggAdd ⟨0, 0, 0, 0, 0, 0⟩

/-- C7 counterexample configuration: `disable_others = true`, no search
filters. -/
def cfgDisableOthers : Config := ⟨some true, none, none, none⟩

/-- C7 counterexample sample: a process whose name is in no table entry. -/
def pmUnknown : ProcMem := ⟨4242, "xyz", 2048, 1024, 1024, 0, 0, 0⟩

/-- cache.rs `MetricsCache` (the PID map as an association list, `Instant`
timestamps as rational seconds). -/
structure MetricsCache where
  processes : List (Nat × ProcMem)
  last_updated : Option Rat
  update_duration_seconds : Rat
  update_success : Bool
  is_updating : Bool
deriving Repr, DecidableEq

/-- cache.rs `MetricsCache::default()`: empty map, never updated, no flags. -/
def MetricsCache.defaultCache : MetricsCache := ⟨[], none, 0, false, false⟩

/-- The atomic writes `update_cache` performs on the shared cache under its
write lock: the guarded begin (cache_updater.rs lines 119–129), the failure
path (lines 156–159, clears `is_updating` only), and the successful publish
(lines 361–374). -/
inductive CacheEvent where
  | beginUpdate : CacheEvent
  | finishFailure : CacheEvent
  | finishSuccess (procs : List (Nat × ProcMem)) (t dur : Rat) : CacheEvent
deriving DecidableEq

/-- The effect of one atomic cache event. -/
def cacheStep (c : MetricsCache) : CacheEvent → MetricsCache
  | .beginUpdate =>
    if c.is_updating then c
    else { c with is_updating := true, update_success := false }
  | .finishFailure => { c with is_updating := false }
  | .finishSuccess procs t dur =>
    { processes := procs, update_duration_seconds := dur,
      update_success := true, last_updated := some t, is_updating := false }

/-- A run of cache events from a given state. -/
def runCache (c : MetricsCache) : List CacheEvent → MetricsCache
  | [] => c
  | e :: es => runCache (cacheStep c e) es

/-- handlers/health.rs `health_handler` lines 32–36: HTTP 200 iff
`cache.update_success && cache.last_updated.is_some()`, else 503. -/
def health_status (c : MetricsCache) : Nat :=
  if c.update_success = true ∧ c.last_updated.isSome = true then 200 else 503

/-- Whether an event list contains a successful refresh completion. -/
def hadSuccess (es : List CacheEvent) : Bool :=
  es.any fun e => match e with
    | .finishSuccess _ _ _ => true
    | _ => false

/-- One concurrent `update_cache` invocation: not yet at its guard, returned
early because it observed `is_updating`, parsing (between the guarded begin
and the publish), or published. -/
inductive TaskPhase where
  | notStarted : TaskPhase
  | returnedEarly : TaskPhase
  | refreshing : TaskPhase
  | done : TaskPhase
deriving Repr, DecidableEq

/-- The shared cache plus the phase of each concurrent `update_cache` task. -/
structure RefreshSystem where
  cache : MetricsCache
  tasks : List TaskPhase

/-- One atomic step of task `i`. The guard (check `is_updating` and set it)
and the publish each execute under one acquisition of the cache write lock in
the source, so each is a single transition; `results i` is the parse outcome
task `i` publishes. A step of a finished or unknown task is a no-op. -/
def taskStep (results : Nat → List (Nat × ProcMem)) (t dur : Rat)
    (sys : RefreshSystem) (i : Nat) : RefreshSystem :=
  match sys.tasks.get? i with
  | some .notStarted =>
    if sys.cache.is_updating then
      { sys with tasks := sys.tasks.set i .returnedEarly }
    else
      { cache := cacheStep sys.cache .beginUpdate,
        tasks := sys.tasks.set i .refreshing }
  | some .refreshing =>
    { cache := cacheStep sys.cache (.finishSuccess (results i) t dur),
      tasks := sys.tasks.set i .done }
  | _ => sys

/-- Run a schedule (an arbitrary interleaving of task indices). -/
def runSystem (results : Nat → List (Nat × ProcMem)) (t dur : Rat)
    (sys : RefreshSystem) : List Nat → RefreshSystem
  | [] => sys
  | i :: sched => runSystem results t dur (taskStep results t dur sys i) sched

/-- `n` concurrent `update_cache` invocations against a fresh cache. -/
def initSystem (n : Nat) : RefreshSystem :=
  ⟨MetricsCache.defaultCache, List.replicate n TaskPhase.notStarted⟩

/-- The number of tasks currently inside the parse phase. -/
def refreshingCount (sys : RefreshSystem) : Nat :=
  sys.tasks.countP (fun ph => ph == TaskPhase.refreshing)

/-- The single-flight invariant: the `is_updating` flag is set exactly when
one task is parsing, and never more than one task parses at a time. -/
structure SFInv (sys : RefreshSystem) : Prop where
  flag_iff : sys.cache.is_updating = true ↔ refreshingCount sys = 1
  at_most_one : refreshingCount sys ≤ 1

/-- metrics.rs `metrics_handler` lines 63–70: trigger a background refresh
iff no update is in flight and the cache is stale by at least the 5 s
throttle window or was never updated (`elapsed().as_secs()` truncates to
whole seconds, hence the floor). -/
def should_trigger_update (c : MetricsCache) (now : Rat) : Bool :=
  !c.is_updating &&
    (match c.last_updated with
     | some t0 => decide ((5 : Int) ≤ ⌊now - t0⌋)
     | none => true)

/-- metrics.rs `metrics_handler`: the handler computes its trigger decision
from the current cache and serves the aggregation of the cache's current
process map, never waiting on the refresh it may have scheduled. -/
def metrics_handler_model (c : MetricsCache) (now : Rat) :
    Bool × List (Nat × ProcMem) :=
  (should_trigger_update c now, c.processes)

theorem stripPrefixCh_eq_some : ∀ (p l r : List Char),
    (stripPrefixCh p l = some r ↔ l = p ++ r) := by
  intro p
  induction p with
  | nil => intro l r; simp [stripPrefixCh]
  | cons p ps ih =>
    intro l r
    cases l with
    | nil => simp [stripPrefixCh]
    | cons c cs =>
      by_cases h : p = c
      · subst h
        simp [stripPrefixCh, ih]
      · simp [stripPrefixCh, h, Ne.symm h]

theorem stripPrefixCh_cons_ne {p c : Char} {ps cs : List Char} (h : p ≠ c) :
    stripPrefixCh (p :: ps) (c :: cs) = none := by
  simp [stripPrefixCh, h]

theorem rssL : "Rss:".toList = ['R', 's', 's', ':'] := rfl

theorem pssL : "Pss:".toList = ['P', 's', 's', ':'] := rfl

theorem pcL : "Private_Clean:".toList =
    ['P', 'r', 'i', 'v', 'a', 't', 'e', '_', 'C', 'l', 'e', 'a', 'n', ':'] := rfl

theorem pdL : "Private_Dirty:".toList =
    ['P', 'r', 'i', 'v', 'a', 't', 'e', '_', 'D', 'i', 'r', 't', 'y', ':'] := rfl

theorem smapsStep_eq (a : SmapsAcc) (l : List Char)
    (h1 : a.rss < U64) (h2 : a.pss < U64) (h3 : a.pc < U64) (h4 : a.pd < U64) :
    smapsStep a l =
      ⟨(a.rss + fieldKb "Rss:" l) % U64, (a.pss + fieldKb "Pss:" l) % U64,
       (a.pc + fieldKb "Private_Clean:" l) % U64,
       (a.pd + fieldKb "Private_Dirty:" l) % U64⟩ := by
  unfold smapsStep fieldKb
  rcases hR : stripPrefixCh "Rss:".toList l with _ | v
  · rcases hP : stripPrefixCh "Pss:".toList l with _ | v
    · rcases hC : stripPrefixCh "Private_Clean:".toList l with _ | v
      · rcases hD : stripPrefixCh "Private_Dirty:".toList l with _ | v
        · simp [Nat.mod_eq_of_lt h1, Nat.mod_eq_of_lt h2, Nat.mod_eq_of_lt h3,
            Nat.mod_eq_of_lt h4]
        · simp [Nat.mod_eq_of_lt h1, Nat.mod_eq_of_lt h2, Nat.mod_eq_of_lt h3]
      · obtain rfl := (stripPrefixCh_eq_some _ _ _).mp hC
        simp [stripPrefixCh, rssL, pssL, pcL, pdL,
          Nat.mod_eq_of_lt h1, Nat.mod_eq_of_lt h2, Nat.mod_eq_of_lt h4]
    · obtain rfl := (stripPrefixCh_eq_some _ _ _).mp hP
      simp [stripPrefixCh, rssL, pssL, pcL, pdL,
        Nat.mod_eq_of_lt h1, Nat.mod_eq_of_lt h3, Nat.mod_eq_of_lt h4]
  · obtain rfl := (stripPrefixCh_eq_some _ _ _).mp hR
    simp [stripPrefixCh, rssL, pssL, pcL, pdL,
      Nat.mod_eq_of_lt h2, Nat.mod_eq_of_lt h3, Nat.mod_eq_of_lt h4]

theorem U64_pos : 0 < U64 := Nat.pos_pow_of_pos 64 (by decide)

theorem smaps_foldl (lines : List (List Char)) : ∀ (a : SmapsAcc),
    a.rss < U64 → a.pss < U64 → a.pc < U64 → a.pd < U64 →
    lines.foldl smapsStep a =
      ⟨(a.rss + sumKb "Rss:" lines) % U64, (a.pss + sumKb "Pss:" lines) % U64,
       (a.pc + sumKb "Private_Clean:" lines) % U64,
       (a.pd + sumKb "Private_Dirty:" lines) % U64⟩ := by
  induction lines with
  | nil =>
    intro a h1 h2 h3 h4
    simp [sumKb, Nat.mod_eq_of_lt h1, Nat.mod_eq_of_lt h2, Nat.mod_eq_of_lt h3,
      Nat.mod_eq_of_lt h4]
  | cons l ls ih =>
    intro a h1 h2 h3 h4
    rw [List.foldl_cons, smapsStep_eq a l h1 h2 h3 h4,
      ih _ (Nat.mod_lt _ U64_pos) (Nat.mod_lt _ U64_pos) (Nat.mod_lt _ U64_pos)
        (Nat.mod_lt _ U64_pos)]
    simp [sumKb, Nat.mod_add_mod, Nat.add_assoc]

theorem parse_smaps_mod (lines : List (List Char)) :
    parse_smaps lines =
      ((1024 * sumKb "Rss:" lines) % U64, (1024 * sumKb "Pss:" lines) % U64,
       (1024 * (sumKb "Private_Clean:" lines + sumKb "Private_Dirty:" lines)) % U64) := by
  unfold parse_smaps
  rw [smaps_foldl lines ⟨0, 0, 0, 0⟩ U64_pos U64_pos U64_pos U64_pos]
  simp only [Nat.zero_add]
  rw [Nat.mod_mul_mod, Nat.mod_mul_mod, ← Nat.add_mod, Nat.mod_mul_mod]
  simp [Nat.mul_comm]

theorem parse_smaps_rollup_eq_parse_smaps (lines : List (List Char)) :
    parse_smaps_rollup lines = parse_smaps lines := rfl

/-- Claim C1: for every smaps or smaps_rollup input, the memory parser returns
the triple (sum of `Rss:` lines, sum of `Pss:` lines, sum of `Private_Clean:`
lines plus sum of `Private_Dirty:` lines), each multiplied by 1024 to convert
kB to bytes (stated under no-`u64`-overflow side conditions), and
`parse_memory_for_process` prefers `smaps_rollup` when that file is present. -/
theorem C1_memory_parse (lines : List (List Char))
    (hr : 1024 * sumKb "Rss:" lines < U64)
    (hp : 1024 * sumKb "Pss:" lines < U64)
    (hu : 1024 * (sumKb "Private_Clean:" lines + sumKb "Private_Dirty:" lines) < U64) :
    parse_smaps_rollup lines =
        (1024 * sumKb "Rss:" lines, 1024 * sumKb "Pss:" lines,
         1024 * (sumKb "Private_Clean:" lines + sumKb "Private_Dirty:" lines)) ∧
    parse_smaps lines =
        (1024 * sumKb "Rss:" lines, 1024 * sumKb "Pss:" lines,
         1024 * (sumKb "Private_Clean:" lines + sumKb "Private_Dirty:" lines)) ∧
    (∀ smaps, parse_memory_for_process (some lines) smaps = .ok (parse_smaps_rollup lines)) ∧
    parse_memory_for_process none (some lines) = .ok (parse_smaps lines) := by
  have h2 : parse_smaps lines =
      (1024 * sumKb "Rss:" lines, 1024 * sumKb "Pss:" lines,
       1024 * (sumKb "Private_Clean:" lines + sumKb "Private_Dirty:" lines)) := by
    rw [parse_smaps_mod lines, Nat.mod_eq_of_lt hr, Nat.mod_eq_of_lt hp,
      Nat.mod_eq_of_lt hu]
  refine ⟨?_, h2, fun _ => rfl, rfl⟩
  rw [parse_smaps_rollup_eq_parse_smaps]
  exact h2

theorem C1_memory_parse_witness :
    parse_smaps_rollup smapsLinesEx = (102400, 81920, 61440) ∧
    parse_smaps smapsLinesEx = (102400, 81920, 61440) := by
  have h := C1_memory_parse smapsLinesEx (by decide) (by decide) (by decide)
  exact ⟨h.1.trans (by decide), h.2.1.trans (by decide)⟩

/-- Claim C2: with a prior cache entry `(c_prev, t_prev)` and a current sample
`(c_now, t_now)`, `t_now > t_prev`, the computed CPU percentage is
`max 0 ((c_now − c_prev) / (t_now − t_prev)) × 100` (so a negative delta from
PID reuse clamps to zero), the cache entry stored afterwards holds
`(c_now, t_now)`, and a PID with no prior entry gets `cpu_percent = 0`. -/
theorem C2_cpu_delta (entry : CpuEntry) (c_now t_now : Rat)
    (h : entry.last_updated < t_now) :
    (get_cpu_stat_for_pid (some entry) c_now t_now).1.cpu_percent =
        max 0 ((c_now - entry.stat.cpu_time_seconds) /
          (t_now - entry.last_updated)) * 100 ∧
    (get_cpu_stat_for_pid (some entry) c_now t_now).2.stat.cpu_time_seconds = c_now ∧
    (get_cpu_stat_for_pid (some entry) c_now t_now).2.last_updated = t_now ∧
    (∀ c t, (get_cpu_stat_for_pid none c t).1.cpu_percent = 0 ∧
      (get_cpu_stat_for_pid none c t).2 = ⟨⟨0, c⟩, t⟩) := by
  have hdt : (0 : Rat) < t_now - entry.last_updated := by linarith
  have hmax : max (t_now - entry.last_updated) 0 = t_now - entry.last_updated :=
    max_eq_left hdt.le
  refine ⟨?_, rfl, rfl, fun c t => ⟨rfl, rfl⟩⟩
  show (if 0 < max (t_now - entry.last_updated) 0 then
      if 0 < c_now - entry.stat.cpu_time_seconds then
        (c_now - entry.stat.cpu_time_seconds) / max (t_now - entry.last_updated) 0 * 100
      else 0
    else 0) = _
  rw [hmax, if_pos hdt]
  by_cases hd : 0 < c_now - entry.stat.cpu_time_seconds
  · rw [if_pos hd, max_eq_right (div_pos hd hdt).le]
  · rw [if_neg hd, max_eq_left (div_nonpos_of_nonpos_of_nonneg (not_lt.mp hd) hdt.le),
      zero_mul]

/-- Witness for C2 at the spec's scenario S2: samples 5.0 s then 7.5 s of CPU
time, 10 s apart, give 25 %. -/
theorem C2_cpu_delta_witness :
    (0 : Rat) < 10 ∧
    (get_cpu_stat_for_pid (some ⟨⟨0, 5⟩, 0⟩) (15 / 2) 10).1.cpu_percent = 25 := by
  have h := C2_cpu_delta ⟨⟨0, 5⟩, 0⟩ (15 / 2) 10 (by norm_num)
  refine ⟨by norm_num, h.1.trans ?_⟩
  rw [show ((15 : Rat) / 2 - (⟨⟨0, 5⟩, 0⟩ : CpuEntry).stat.cpu_time_seconds) /
      (10 - (⟨⟨0, 5⟩, 0⟩ : CpuEntry).last_updated) = 1 / 4 by norm_num]
  rw [max_eq_right (by norm_num : (0 : Rat) ≤ 1 / 4)]
  norm_num

/-- Claim C3 (code bug): `parse_cpu_time_seconds` splits the whole stat line
on whitespace instead of locating fields after the closing `)` of comm, so a
comm containing a space shifts the field indices: on `statContentSpace` the
code reads 10 and 11 (21/100 s at CLK_TCK = 100) where fields 14 and 15 after
the `)` are 11 and 12 (23/100 s). On a space-free comm the two agree. -/
theorem C3_cpu_time_comm_space :
    parse_cpu_time_seconds statContentSpace 100 = .ok (21 / 100) ∧
    spec_cpu_time_seconds statContentSpace 100 = some (23 / 100) ∧
    ((21 : Rat) / 100 ≠ 23 / 100) ∧
    parse_cpu_time_seconds statContentNoSpace 100 = .ok (150 / 100) ∧
    spec_cpu_time_seconds statContentNoSpace 100 = some (150 / 100) := by
  refine ⟨?_, ?_, by norm_num, ?_, ?_⟩
  · simp only [parse_cpu_time_seconds]
    rw [if_neg (by decide),
      show (parseNumTokQ ((splitWs statContentSpace).getD 13 [])) = some ((10 : Nat) : Rat)
        from by decide,
      show (parseNumTokQ ((splitWs statContentSpace).getD 14 [])) = some ((11 : Nat) : Rat)
        from by decide]
    exact congrArg Except.ok (by push_cast; norm_num)
  · simp only [spec_cpu_time_seconds]
    rw [show parseU64Ch ((splitWs (afterCommCh statContentSpace)).getD 11 []) = some 11
        from by decide,
      show parseU64Ch ((splitWs (afterCommCh statContentSpace)).getD 12 []) = some 12
        from by decide]
    exact congrArg some (by push_cast; norm_num)
  · simp only [parse_cpu_time_seconds]
    rw [if_neg (by decide),
      show (parseNumTokQ ((splitWs statContentNoSpace).getD 13 [])) = some ((100 : Nat) : Rat)
        from by decide,
      show (parseNumTokQ ((splitWs statContentNoSpace).getD 14 [])) = some ((50 : Nat) : Rat)
        from by decide]
    exact congrArg Except.ok (by push_cast; norm_num)
  · simp only [spec_cpu_time_seconds]
    rw [show parseU64Ch ((splitWs (afterCommCh statContentNoSpace)).getD 11 []) = some 100
        from by decide,
      show parseU64Ch ((splitWs (afterCommCh statContentNoSpace)).getD 12 []) = some 50
        from by decide]
    exact congrArg some (by push_cast; norm_num)

/-- Claim C4 (code bug): with starttime = 4000 jiffies, CLK_TCK = 100 and
system uptime 1000 s, the claimed start time since boot is 40 s, but
`parse_start_time_seconds` returns `1000 − 40 = 960` (the process age),
contradicting its own doc comment and its consumers, which subtract the
result from the system uptime again to obtain the process age. -/
theorem C4_start_time_inverted :
    parse_start_time_seconds statContentNoSpace 1000 100 = .ok 960 ∧
    spec_start_time_seconds statContentNoSpace 100 = some 40 ∧
    ((960 : Rat) ≠ 40) := by
  refine ⟨?_, ?_, by norm_num⟩
  · simp only [parse_start_time_seconds]
    rw [if_neg (by decide),
      show parseU64Ch ((splitWs statContentNoSpace).getD 21 []) = some 4000 from by decide]
    exact congrArg Except.ok (by push_cast; norm_num)
  · simp only [spec_start_time_seconds]
    rw [show parseU64Ch ((splitWs statContentNoSpace).getD 21 []) = some 4000 from by decide]
    exact congrArg some (by push_cast; norm_num)

theorem RBInv.new {α : Type} (d : α) (E : Nat) (hE : 1 ≤ E) :
    RBInv (Ringbuffer.new d E) :=
  ⟨List.length_replicate E d, Nat.zero_le E, hE, fun _ => rfl⟩

theorem RBInv.push {α : Type} {rb : Ringbuffer α} (h : RBInv rb) (e : α) :
    RBInv (rb.push e) := by
  have hE : 0 < rb.capacity := Nat.lt_of_le_of_lt (Nat.zero_le _) h.wi_lt
  refine ⟨?_, ?_, ?_, ?_⟩
  · simpa [Ringbuffer.push] using h.len_eq
  · simp only [Ringbuffer.push]
    split
    · omega
    · exact h.count_le
  · simpa [Ringbuffer.push] using Nat.mod_lt _ hE
  · simp only [Ringbuffer.push]
    split
    · intro hlt
      rw [h.wi_eq (by assumption)]
      exact Nat.mod_eq_of_lt (by omega)
    · intro hlt
      omega

theorem Ringbuffer.capacity_push {α : Type} (rb : Ringbuffer α) (e : α) :
    (rb.push e).capacity = rb.capacity := rfl

theorem Ringbuffer.get_history_not_full {α : Type} {rb : Ringbuffer α}
    (hc : rb.count < rb.capacity) :
    rb.get_history = rb.entries.take rb.count := by
  unfold Ringbuffer.get_history
  by_cases h0 : rb.count = 0
  · simp [h0]
  · rw [if_neg h0, if_pos hc]

theorem Ringbuffer.get_history_full {α : Type} {rb : Ringbuffer α}
    (hc : rb.count = rb.capacity) (hE : 0 < rb.capacity) :
    rb.get_history = rb.entries.drop rb.write_index ++ rb.entries.take rb.write_index := by
  unfold Ringbuffer.get_history
  rw [if_neg (by omega), if_neg (by omega)]

theorem Ringbuffer.get_history_push {α : Type} {rb : Ringbuffer α} (h : RBInv rb) (e : α) :
    (rb.push e).get_history =
      if rb.count < rb.capacity then rb.get_history ++ [e]
      else rb.get_history.tail ++ [e] := by
  have hE : 0 < rb.capacity := Nat.lt_of_le_of_lt (Nat.zero_le _) h.wi_lt
  have hlen := h.len_eq
  by_cases hc : rb.count < rb.capacity
  · -- not yet full: write index equals count
    have hw : rb.write_index = rb.count := h.wi_eq hc
    have hwl : rb.count < rb.entries.length := by omega
    have hset : rb.entries.set rb.count e =
        rb.entries.take rb.count ++ e :: rb.entries.drop (rb.count + 1) :=
      List.set_eq_take_cons_drop e hwl
    have htake : (rb.entries.take rb.count).length = rb.count := by
      simp [List.length_take]
      omega
    have hcount : (rb.push e).count = rb.count + 1 := by
      simp [Ringbuffer.push, hc]
    have hentries : (rb.push e).entries = rb.entries.set rb.count e := by
      simp [Ringbuffer.push, hw]
    have hcap : (rb.push e).capacity = rb.capacity := rfl
    rw [if_pos hc, Ringbuffer.get_history_not_full hc]
    by_cases hc1 : rb.count + 1 < rb.capacity
    · -- still not full after the push
      rw [Ringbuffer.get_history_not_full (by rw [hcount, hcap]; exact hc1),
        hcount, hentries, hset, List.take_append_eq_append_take, htake,
        List.take_of_length_le (by omega), Nat.add_sub_cancel_left]
      simp
    · -- the push fills the buffer exactly
      have hfull : rb.count + 1 = rb.capacity := by omega
      have hwi : (rb.push e).write_index = 0 := by
        simp [Ringbuffer.push, hw, hfull]
      have hdrop : rb.entries.drop (rb.count + 1) = [] :=
        List.drop_eq_nil_of_le (by omega)
      rw [Ringbuffer.get_history_full (by rw [hcount, hcap]; exact hfull)
          (by rw [hcap]; exact hE), hwi, hentries, hset, hdrop]
      simp
  · -- full buffer: the push overwrites the oldest entry
    have hcE : rb.count = rb.capacity := Nat.le_antisymm h.count_le (Nat.le_of_not_lt hc)
    have hwl : rb.write_index < rb.entries.length := by
      have := h.wi_lt
      omega
    have hset : rb.entries.set rb.write_index e =
        rb.entries.take rb.write_index ++ e :: rb.entries.drop (rb.write_index + 1) :=
      List.set_eq_take_cons_drop e hwl
    have htake : (rb.entries.take rb.write_index).length = rb.write_index := by
      simp [List.length_take]
      omega
    have hcount : (rb.push e).count = rb.count := by
      simp [Ringbuffer.push, hc]
    have hentries : (rb.push e).entries = rb.entries.set rb.write_index e := rfl
    have hcap : (rb.push e).capacity = rb.capacity := rfl
    have hne : rb.entries.drop rb.write_index ≠ [] := by
      intro hnil
      have hl := List.length_drop rb.write_index rb.entries
      rw [hnil] at hl
      simp at hl
      have := h.wi_lt
      omega
    have htail : rb.get_history.tail =
        rb.entries.drop (rb.write_index + 1) ++ rb.entries.take rb.write_index := by
      rw [Ringbuffer.get_history_full hcE hE]
      cases hd : rb.entries.drop rb.write_index with
      | nil => exact absurd hd hne
      | cons y ys =>
        have hys : rb.entries.drop (rb.write_index + 1) = ys := by
          have ht := List.tail_drop rb.entries rb.write_index
          rw [hd] at ht
          simpa using ht.symm
        simp [hys]
    rw [if_neg hc, htail]
    by_cases hw1 : rb.write_index + 1 < rb.capacity
    · have hwi : (rb.push e).write_index = rb.write_index + 1 := by
        simp [Ringbuffer.push, Nat.mod_eq_of_lt hw1]
      rw [Ringbuffer.get_history_full (by rw [hcount, hcap]; exact hcE)
          (by rw [hcap]; exact hE), hwi, hentries, hset]
      rw [List.drop_append_eq_append_drop, htake,
        List.drop_of_length_le (by omega), Nat.add_sub_cancel_left,
        List.take_append_eq_append_take, htake,
        List.take_of_length_le (by omega), Nat.add_sub_cancel_left]
      simp
    · have hfull : rb.write_index + 1 = rb.capacity := by
        have := h.wi_lt
        omega
      have hwi : (rb.push e).write_index = 0 := by
        simp [Ringbuffer.push, hfull]
      have hdrop : rb.entries.drop (rb.write_index + 1) = [] :=
        List.drop_eq_nil_of_le (by omega)
      rw [Ringbuffer.get_history_full (by rw [hcount, hcap]; exact hcE)
          (by rw [hcap]; exact hE), hwi, hentries, hset, hdrop]
      simp

theorem Ringbuffer.pushAll_append_one {α : Type} (rb : Ringbuffer α) (xs : List α) (x : α) :
    rb.pushAll (xs ++ [x]) = (rb.pushAll xs).push x := by
  simp [Ringbuffer.pushAll]

theorem Ringbuffer.pushAll_spec {α : Type} (d : α) (E : Nat) (hE : 1 ≤ E) (xs : List α) :
    RBInv ((Ringbuffer.new d E).pushAll xs) ∧
    ((Ringbuffer.new d E).pushAll xs).capacity = E ∧
    ((Ringbuffer.new d E).pushAll xs).count = min xs.length E ∧
    ((Ringbuffer.new d E).pushAll xs).get_history = xs.drop (xs.length - E) := by
  induction xs using List.reverseRecOn with
  | nil =>
    refine ⟨RBInv.new d E hE, rfl, by simp [Ringbuffer.pushAll, Ringbuffer.new], ?_⟩
    simp [Ringbuffer.pushAll, Ringbuffer.new, Ringbuffer.get_history]
  | append_singleton xs x ih =>
    obtain ⟨hinv, hcap, hcount, hhist⟩ := ih
    rw [Ringbuffer.pushAll_append_one]
    refine ⟨RBInv.push hinv x, hcap, ?_, ?_⟩
    · show (if _ < _ then _ else _) = _
      rw [hcount, hcap]
      simp only [List.length_append, List.length_singleton]
      split <;> omega
    · rw [Ringbuffer.get_history_push hinv x]
      rcases Nat.lt_or_ge xs.length E with hlt | hge
      · have hcond : ((Ringbuffer.new d E).pushAll xs).count <
            ((Ringbuffer.new d E).pushAll xs).capacity := by
          rw [hcount, hcap]
          omega
        rw [if_pos hcond, hhist]
        have h0 : xs.length - E = 0 := by omega
        have h1 : (xs ++ [x]).length - E = 0 := by
          simp only [List.length_append, List.length_singleton]
          omega
        rw [h0, h1]
        simp
      · have hcond : ¬((Ringbuffer.new d E).pushAll xs).count <
            ((Ringbuffer.new d E).pushAll xs).capacity := by
          rw [hcount, hcap]
          omega
        rw [if_neg hcond, hhist, List.tail_drop]
        rw [List.drop_append_eq_append_drop]
        have h1 : (xs ++ [x]).length - E = xs.length - E + 1 := by
          simp only [List.length_append, List.length_singleton]
          omega
        rw [h1]
        have h2 : xs.length - E + 1 - xs.length = 0 := by omega
        rw [h2]
        simp

/-- Claim C5: for every ring buffer created with capacity `E ≥ 1` and every
finite sequence `xs` of pushed entries, `len = min |xs| E ≤ capacity = E` and
`get_history` returns exactly the last `min |xs| E` pushed entries in push
order (oldest first); in particular once full, each further push drops the
oldest visible entry. -/
theorem C5_ringbuffer_history {α : Type} (d : α) (E : Nat) (hE : 1 ≤ E) (xs : List α) :
    ((Ringbuffer.new d E).pushAll xs).len = min xs.length E ∧
    ((Ringbuffer.new d E).pushAll xs).len ≤ ((Ringbuffer.new d E).pushAll xs).capacity ∧
    ((Ringbuffer.new d E).pushAll xs).capacity = E ∧
    ((Ringbuffer.new d E).pushAll xs).get_history = xs.drop (xs.length - E) := by
  obtain ⟨hinv, hcap, hcount, hhist⟩ := Ringbuffer.pushAll_spec d E hE xs
  exact ⟨hcount, hinv.count_le, hcap, hhist⟩

/-- Witness for C5 at the spec's scenario S4: capacity 3, timestamps
1000…1400 pushed; the history is the last three in order. -/
theorem C5_ringbuffer_history_witness :
    (1 : Nat) ≤ 3 ∧
    ((Ringbuffer.new (0 : Nat) 3).pushAll [1000, 1100, 1200, 1300, 1400]).get_history =
      [1200, 1300, 1400] ∧
    ((Ringbuffer.new (0 : Nat) 3).pushAll [1000, 1100, 1200, 1300, 1400]).len = 3 := by
  have h := C5_ringbuffer_history (0 : Nat) 3 (by decide) [1000, 1100, 1200, 1300, 1400]
  exact ⟨by decide, h.2.2.2.trans (by decide), h.1.trans (by decide)⟩

theorem Ringbuffer.pushAllChecked_eq_some {α : Type} :
    ∀ (xs : List α) (rb : Ringbuffer α), RBInv rb →
      rb.pushAllChecked xs = some (rb.pushAll xs)
  | [], rb, _ => by simp [Ringbuffer.pushAllChecked, Ringbuffer.pushAll]
  | x :: xs, rb, h => by
    have hlt : rb.write_index < rb.entries.length := by
      rw [h.len_eq]
      exact h.wi_lt
    simp only [Ringbuffer.pushAllChecked, Ringbuffer.pushChecked, if_pos hlt]
    rw [Ringbuffer.pushAllChecked_eq_some xs _ (RBInv.push h x)]
    simp [Ringbuffer.pushAll]

theorem assocGet_upd {β : Type} :
    ∀ (l : List (String × β)) (k k' : String) (v : β),
      assocGet (assocUpd l k v) k' = if k' = k then some v else assocGet l k'
  | [], k, k', v => by simp [assocUpd, assocGet]
  | (k0, v0) :: rest, k, k', v => by
    simp only [assocUpd]
    by_cases h : k = k0
    · subst h
      by_cases h' : k' = k <;> simp [assocGet, h']
    · by_cases h' : k' = k
      · subst h'
        simp [assocGet, h, assocGet_upd rest]
      · simp only [if_neg h, assocGet]
        by_cases h0 : k' = k0 <;> simp [h0, assocGet_upd rest, h', Ne.symm h]

theorem RingbufferManager.recordAll_eps :
    ∀ (ops : List (String × RingbufferEntry)) (m : RingbufferManager),
      (m.recordAll ops).entries_per_subgroup = m.entries_per_subgroup
  | [], _ => rfl
  | (k, e) :: ops, m => by
    show ((m.record k e).recordAll ops).entries_per_subgroup = _
    rw [RingbufferManager.recordAll_eps ops]
    rfl

theorem RingbufferManager.recordAll_interval :
    ∀ (ops : List (String × RingbufferEntry)) (m : RingbufferManager),
      (m.recordAll ops).interval_seconds = m.interval_seconds
  | [], _ => rfl
  | (k, e) :: ops, m => by
    show ((m.record k e).recordAll ops).interval_seconds = _
    rw [RingbufferManager.recordAll_interval ops]
    rfl

theorem RingbufferManager.record_cap (m : RingbufferManager) (k0 : String)
    (e : RingbufferEntry)
    (h : ∀ k rb, assocGet m.buffers k = some rb →
      rb.capacity = m.entries_per_subgroup) :
    ∀ k rb, assocGet (m.record k0 e).buffers k = some rb →
      rb.capacity = m.entries_per_subgroup := by
  intro k rb hget
  simp only [RingbufferManager.record] at hget
  rw [assocGet_upd] at hget
  by_cases hk : k = k0
  · rw [if_pos hk, Option.some_inj] at hget
    subst hget
    rw [Ringbuffer.capacity_push]
    rcases hg : assocGet m.buffers k0 with _ | rb'
    · simp only [hg]
      rfl
    · simp only [hg]
      exact h k0 rb' hg
  · rw [if_neg hk] at hget
    exact h k rb hget

theorem RingbufferManager.recordAll_cap :
    ∀ (ops : List (String × RingbufferEntry)) (m : RingbufferManager),
      (∀ k rb, assocGet m.buffers k = some rb →
        rb.capacity = m.entries_per_subgroup) →
      ∀ k rb, assocGet (m.recordAll ops).buffers k = some rb →
        rb.capacity = m.entries_per_subgroup
  | [], _, h => h
  | (k0, e) :: ops, m, h => by
    show ∀ k rb, assocGet ((m.record k0 e).recordAll ops).buffers k = some rb → _
    exact RingbufferManager.recordAll_cap ops (m.record k0 e)
      (RingbufferManager.record_cap m k0 e h)

/-- Claim C6: the per-subgroup ring capacity is computed once at manager
construction as `clamp(⌊max_memory_mb × 2^20 / 256 / max(1, N₀)⌋, E_min,
E_max)` (no-overflow side conditions made explicit), never changes under any
sequence of `record` calls, every ring in the map has exactly that capacity,
and `get_stats().history_seconds = E × interval_seconds`. -/
theorem C6_manager_capacity (cfg : RingbufferConfig) (n0 : Nat)
    (ops : List (String × RingbufferEntry))
    (hmem : cfg.max_memory_mb * 1024 * 1024 < U64)
    (hhist : (RingbufferManager.new cfg n0).entries_per_subgroup *
      cfg.interval_seconds < U64) :
    ((RingbufferManager.new cfg n0).recordAll ops).entries_per_subgroup =
      min (max (cfg.max_memory_mb * 1024 * 1024 / ENTRY_SIZE_BYTES / max n0 1)
        cfg.min_entries_per_subgroup) cfg.max_entries_per_subgroup ∧
    ((RingbufferManager.new cfg n0).recordAll ops).entries_per_subgroup =
      (RingbufferManager.new cfg n0).entries_per_subgroup ∧
    (∀ k rb,
      assocGet ((RingbufferManager.new cfg n0).recordAll ops).buffers k = some rb →
      rb.capacity = ((RingbufferManager.new cfg n0).recordAll ops).entries_per_subgroup) ∧
    ((RingbufferManager.new cfg n0).recordAll ops).get_stats.history_seconds =
      ((RingbufferManager.new cfg n0).recordAll ops).entries_per_subgroup *
        cfg.interval_seconds := by
  have heps := RingbufferManager.recordAll_eps ops (RingbufferManager.new cfg n0)
  have hint := RingbufferManager.recordAll_interval ops (RingbufferManager.new cfg n0)
  refine ⟨?_, heps, ?_, ?_⟩
  · rw [heps]
    show min (max (cfg.max_memory_mb * 1024 * 1024 % U64 / ENTRY_SIZE_BYTES / max n0 1)
      cfg.min_entries_per_subgroup) cfg.max_entries_per_subgroup = _
    rw [Nat.mod_eq_of_lt hmem]
  · intro k rb hget
    rw [heps]
    refine RingbufferManager.recordAll_cap ops _ ?_ k rb hget
    intro k' rb' hget'
    simp [RingbufferManager.new, assocGet] at hget'
  · simp only [RingbufferManager.get_stats]
    rw [heps, hint]
    show (RingbufferManager.new cfg n0).entries_per_subgroup *
      cfg.interval_seconds % U64 = _
    rw [Nat.mod_eq_of_lt hhist]

/-- Witness for C6 at the default configuration (15 MB, 30 s, 10–120) and an
initial estimate of 10 subgroups: capacity 120 and a 3600 s history window. -/
theorem C6_manager_capacity_witness :
    RingbufferConfig.defaultConfig.max_memory_mb * 1024 * 1024 < U64 ∧
    ((RingbufferManager.new RingbufferConfig.defaultConfig 10).recordAll
      [("web:nginx", RingbufferEntry.defaultEntry)]).entries_per_subgroup = 120 ∧
    ((RingbufferManager.new RingbufferConfig.defaultConfig 10).recordAll
      [("web:nginx", RingbufferEntry.defaultEntry)]).get_stats.history_seconds =
      3600 := by
  have h := C6_manager_capacity RingbufferConfig.defaultConfig 10
    [("web:nginx", RingbufferEntry.defaultEntry)] (by decide) (by decide)
  refine ⟨by decide, h.1.trans (by decide), ?_⟩
  rw [h.2.2.2, h.1]
  decide

/-- Claim C10: pushes and history reads of a ring buffer of capacity ≥ 1
never index out of bounds (the write index stays below the capacity, so the
`% capacity` is never a division by zero); a capacity-0 buffer panics on the
first push; and the manager guarantees capacity ≥ 1 only when
`min_entries_per_subgroup ≥ 1` — with a zero minimum some initial subgroup
count yields capacity 0 (and with min ≥ 1 bounded by max, capacity ≥ 1). -/
theorem C10_ringbuffer_safety :
    (∀ (α : Type) (d : α) (E : Nat), 1 ≤ E → ∀ (xs : List α),
      (Ringbuffer.new d E).pushAllChecked xs = some ((Ringbuffer.new d E).pushAll xs) ∧
      ((Ringbuffer.new d E).pushAll xs).write_index < E) ∧
    (∀ (α : Type) (d e : α), (Ringbuffer.new d 0).pushChecked e = none) ∧
    (∀ cfg : RingbufferConfig, cfg.min_entries_per_subgroup = 0 →
      ∃ n0, (RingbufferManager.new cfg n0).entries_per_subgroup = 0) ∧
    (∀ cfg : RingbufferConfig, 1 ≤ cfg.min_entries_per_subgroup →
      cfg.min_entries_per_subgroup ≤ cfg.max_entries_per_subgroup →
      ∀ n0, 1 ≤ (RingbufferManager.new cfg n0).entries_per_subgroup) := by
  refine ⟨?_, ?_, ?_, ?_⟩
  · intro α d E hE xs
    obtain ⟨hinv, hcap, -, -⟩ := Ringbuffer.pushAll_spec d E hE xs
    refine ⟨Ringbuffer.pushAllChecked_eq_some xs _ (RBInv.new d E hE), ?_⟩
    exact lt_of_lt_of_le hinv.wi_lt hcap.le
  · intro α d e
    simp [Ringbuffer.pushChecked, Ringbuffer.new]
  · intro cfg h0
    refine ⟨cfg.max_memory_mb * 1024 * 1024 % U64 / ENTRY_SIZE_BYTES + 1, ?_⟩
    show min (max (cfg.max_memory_mb * 1024 * 1024 % U64 / ENTRY_SIZE_BYTES /
      max (cfg.max_memory_mb * 1024 * 1024 % U64 / ENTRY_SIZE_BYTES + 1) 1)
      cfg.min_entries_per_subgroup) cfg.max_entries_per_subgroup = 0
    rw [h0, Nat.div_eq_of_lt (by omega)]
    simp
  · intro cfg h1 h12 n0
    show 1 ≤ min (max _ cfg.min_entries_per_subgroup) cfg.max_entries_per_subgroup
    exact le_min (le_trans h1 (le_max_right _ _)) (le_trans h1 h12)

/-- Witness for C10: capacity 2 absorbs three pushes without a panic,
capacity 0 panics at once, and the default configuration guarantees
capacity ≥ 1. -/
theorem C10_ringbuffer_safety_witness :
    (1 : Nat) ≤ 2 ∧
    (Ringbuffer.new (0 : Nat) 2).pushAllChecked [5, 6, 7] =
      some ((Ringbuffer.new (0 : Nat) 2).pushAll [5, 6, 7]) ∧
    (Ringbuffer.new (0 : Nat) 0).pushChecked 5 = none ∧
    1 ≤ (RingbufferManager.new RingbufferConfig.defaultConfig 10).entries_per_subgroup :=
  ⟨by decide, (C10_ringbuffer_safety.1 Nat 0 2 (by decide) [5, 6, 7]).1,
    C10_ringbuffer_safety.2.1 Nat 0 5,
    C10_ringbuffer_safety.2.2.2 RingbufferConfig.defaultConfig (by decide) (by decide) 10⟩

theorem assocGet_isSome_iff {β : Type} :
    ∀ (l : List (String × β)) (k : String),
      (assocGet l k).isSome = true ↔ k ∈ l.map Prod.fst
  | [], k => by simp [assocGet]
  | (k0, v) :: rest, k => by
    simp only [assocGet, List.map_cons, List.mem_cons]
    by_cases h : k = k0
    · simp [h]
    · simp [h, assocGet_isSome_iff rest]

theorem aggregate_foldl_get (table : SubgroupsMap) :
    ∀ (results : List ProcMem) (acc : List (String × AggregatedData)) (k : String),
      assocGet (results.foldl (aggStep table) acc) k =
        (results.filter (fun p => ringKey table p = k)).foldl
          (fun o p => some (aggAdd (o.getD ⟨0, 0, 0, 0, 0, 0⟩) p)) (assocGet acc k)
  | [], _, _ => rfl
  | p :: ps, acc, k => by
    rw [List.foldl_cons, aggregate_foldl_get table ps]
    by_cases hk : ringKey table p = k
    · rw [List.filter_cons_of_pos (by simpa using hk), List.foldl_cons]
      congr 1
      show assocGet (assocUpd acc (ringKey table p) _) k = _
      rw [assocGet_upd, if_pos hk.symm, hk]
      rfl
    · rw [List.filter_cons_of_neg (by simpa using hk)]
      congr 1
      show assocGet (assocUpd acc (ringKey table p) _) k = _
      rw [assocGet_upd, if_neg (fun h => hk h.symm)]

theorem optFold_eq_some : ∀ (ps : List ProcMem) (a : AggregatedData),
    ps.foldl (fun o p => some (aggAdd (o.getD ⟨0, 0, 0, 0, 0, 0⟩) p)) (some a) =
      some (ps.foldl aggAdd a)
  | [], _ => rfl
  | p :: ps, a => by
    rw [List.foldl_cons, List.foldl_cons]
    exact optFold_eq_some ps (aggAdd a p)

theorem aggregateForRing_get (table : SubgroupsMap) (results : List ProcMem)
    (k : String) :
    assocGet (aggregateForRing table results) k =
      if results.filter (fun p => ringKey table p = k) = [] then none
      else some (aggOfList (results.filter (fun p => ringKey table p = k))) := by
  rw [aggregateForRing, aggregate_foldl_get table results [] k]
  show (results.filter (fun p => ringKey table p = k)).foldl _ none = _
  rcases hf : results.filter (fun p => ringKey table p = k) with _ | ⟨q, qs⟩
  · simp
  · rw [if_neg (by simp), List.foldl_cons, optFold_eq_some]
    rfl

/-- Claim C7 counterexample: with `disable_others = true` the sample `"xyz"`
is rejected by `classify_process_with_config`, yet the ring aggregation of
`update_cache` still produces a record for it, and under the raw key
`"other:unknown"` — not `"other:other"`. -/
theorem C7_counterexample :
    classify_process_with_config [] "xyz" cfgDisableOthers = none ∧
    recordedRingKeys [] [pmUnknown] = ["other:unknown"] ∧
    pmUnknown.name = "xyz" := by
  refine ⟨by decide, by decide, rfl⟩

/-- Claim C7 amended: the per-refresh ring aggregation in `update_cache`
keys every sample of the results by `classify_process_raw` and ignores
`classify_with_config` entirely (the config filters are applied at scrape
time in the metrics handler instead): a key is recorded iff some sample's
raw classification yields it — so unknown names are recorded under
`"other:unknown"` — and each key aggregates exactly the samples with that
raw key; `classify_process_with_config` itself never returns the pair
`("other", "unknown")`, normalising it to `("other", "other")`. -/
theorem C7_ring_aggregation_amended (table : SubgroupsMap) (results : List ProcMem) :
    (∀ k, k ∈ recordedRingKeys table results ↔ ∃ p ∈ results, ringKey table p = k) ∧
    (∀ k, assocGet (aggregateForRing table results) k =
      if results.filter (fun p => ringKey table p = k) = [] then none
      else some (aggOfList (results.filter (fun p => ringKey table p = k)))) ∧
    (∀ name cfg gs, classify_process_with_config table name cfg = some gs →
      gs ≠ ("other", "unknown")) := by
  refine ⟨?_, aggregateForRing_get table results, ?_⟩
  · intro k
    rw [recordedRingKeys, ← assocGet_isSome_iff, aggregateForRing_get table results k]
    by_cases hf : results.filter (fun p => ringKey table p = k) = []
    · rw [if_pos hf]
      simp only [Option.isSome_none, Bool.false_eq_true, false_iff]
      rintro ⟨p, hp, hkey⟩
      have : p ∈ results.filter (fun p => ringKey table p = k) :=
        List.mem_filter.mpr ⟨hp, by simpa using hkey⟩
      rw [hf] at this
      simp at this
    · rw [if_neg hf]
      simp only [Option.isSome_some, true_iff]
      obtain ⟨p, hp⟩ := List.exists_mem_of_ne_nil _ hf
      obtain ⟨hmem, hkey⟩ := List.mem_filter.mp hp
      exact ⟨p, hmem, by simpa using hkey⟩
  · intro name cfg gs hgs
    simp only [classify_process_with_config] at hgs
    split at hgs
    · exact absurd hgs (by simp)
    · split at hgs
      · exact absurd hgs (by simp)
      · split at hgs
        · rw [Option.some_inj] at hgs
          subst hgs
          decide
        · rw [Option.some_inj] at hgs
          subst hgs
          intro heq
          rename_i hno
          rw [heq] at hno
          exact hno (by decide)

theorem runCache_last_updated : ∀ (es : List CacheEvent) (c : MetricsCache),
    (runCache c es).last_updated.isSome = (hadSuccess es || c.last_updated.isSome)
  | [], c => by simp [runCache, hadSuccess]
  | e :: es, c => by
    rw [show runCache c (e :: es) = runCache (cacheStep c e) es from rfl,
      runCache_last_updated es]
    cases e with
    | beginUpdate =>
      have : (cacheStep c .beginUpdate).last_updated = c.last_updated := by
        simp only [cacheStep]
        split <;> rfl
      rw [this]
      simp [hadSuccess]
    | finishFailure =>
      simp [cacheStep, hadSuccess]
    | finishSuccess procs t dur =>
      simp [cacheStep, hadSuccess]

theorem runCache_flag_inv : ∀ (es : List CacheEvent) (c : MetricsCache),
    (c.is_updating = true → c.update_success = false) →
    ((runCache c es).is_updating = true → (runCache c es).update_success = false)
  | [], _, h => h
  | e :: es, c, h => by
    rw [show runCache c (e :: es) = runCache (cacheStep c e) es from rfl]
    refine runCache_flag_inv es _ ?_
    cases e with
    | beginUpdate =>
      simp only [cacheStep]
      split
      · exact h
      · intro _
        rfl
    | finishFailure => simp [cacheStep]
    | finishSuccess procs t dur => simp [cacheStep]

/-- Claim C8 counterexample: begin → success → begin. A successful refresh
has completed, yet `/health` returns 503, because `update_success` is
cleared when the second refresh starts. -/
theorem C8_counterexample :
    health_status (runCache MetricsCache.defaultCache
      [CacheEvent.beginUpdate, CacheEvent.finishSuccess [] 1 0,
       CacheEvent.beginUpdate]) = 503 ∧
    hadSuccess [CacheEvent.beginUpdate, CacheEvent.finishSuccess [] 1 0,
      CacheEvent.beginUpdate] = true := by
  exact ⟨rfl, rfl⟩

/-- Claim C8 amended: `/health` returns 200 iff `update_success` is set AND a
snapshot exists; once a refresh has succeeded a snapshot always exists (the
first conjunct), but a request arriving while a later refresh is in flight —
or after a failed refresh — gets 503, since `update_success` is cleared at
refresh start (third conjunct: in flight implies `update_success = false`).
With no successful refresh ever completed, `/health` always returns 503. -/
theorem C8_health_amended (es : List CacheEvent) :
    ((runCache MetricsCache.defaultCache es).last_updated.isSome = hadSuccess es) ∧
    (health_status (runCache MetricsCache.defaultCache es) = 200 ↔
      (runCache MetricsCache.defaultCache es).update_success = true ∧
        hadSuccess es = true) ∧
    ((runCache MetricsCache.defaultCache es).is_updating = true →
      health_status (runCache MetricsCache.defaultCache es) = 503) ∧
    (hadSuccess es = false →
      health_status (runCache MetricsCache.defaultCache es) = 503) := by
  have hlast : (runCache MetricsCache.defaultCache es).last_updated.isSome =
      hadSuccess es := by
    rw [runCache_last_updated es]
    simp [MetricsCache.defaultCache]
  have hflag := runCache_flag_inv es MetricsCache.defaultCache (by intro h; rfl)
  refine ⟨hlast, ?_, ?_, ?_⟩
  · unfold health_status
    rw [hlast]
    split
    · rename_i hcond
      simp [hcond.1, hcond.2]
    · rename_i hcond
      constructor
      · intro h
        exact absurd h (by decide)
      · intro h
        exact absurd h hcond
  · intro hrun
    unfold health_status
    rw [if_neg]
    intro hcond
    rw [hflag hrun] at hcond
    exact absurd hcond.1 (by decide)
  · intro hno
    unfold health_status
    rw [if_neg]
    intro hcond
    rw [hlast, hno] at hcond
    exact absurd hcond.2 (by decide)

theorem countP_set_of_get {α : Type} (p : α → Bool) :
    ∀ (l : List α) (i : Nat) (x a : α), l.get? i = some x →
      (l.set i a).countP p + (if p x then 1 else 0) =
        l.countP p + (if p a then 1 else 0)
  | [], i, x, a, h => by simp at h
  | y :: ys, 0, x, a, h => by
    obtain rfl : y = x := by simpa using h
    simp only [List.set_cons_zero, List.countP_cons]
    split <;> split <;> omega
  | y :: ys, i + 1, x, a, h => by
    have := countP_set_of_get p ys i x a (by simpa using h)
    simp only [List.set_cons_succ, List.countP_cons]
    split <;> omega

theorem SFInv.init (n : Nat) : SFInv (initSystem n) := by
  constructor
  · simp only [initSystem, MetricsCache.defaultCache, refreshingCount]
    constructor
    · intro h
      exact absurd h (by decide)
    · intro h
      rw [List.countP_eq_zero.mpr (by intro a ha; simp [List.eq_of_mem_replicate ha])] at h
      exact absurd h (by decide)
  · simp only [initSystem, refreshingCount]
    rw [List.countP_eq_zero.mpr (by intro a ha; simp [List.eq_of_mem_replicate ha])]
    decide

theorem SFInv.step (results : Nat → List (Nat × ProcMem)) (t dur : Rat)
    {sys : RefreshSystem} (h : SFInv sys) (i : Nat) :
    SFInv (taskStep results t dur sys i) := by
  have hflag := h.flag_iff
  have hmax := h.at_most_one
  simp only [refreshingCount] at hflag hmax
  unfold taskStep
  rcases hg : sys.tasks.get? i with _ | ph
  · exact h
  cases ph with
  | notStarted =>
    by_cases hu : sys.cache.is_updating = true
    · rw [if_pos hu]
      have hc := countP_set_of_get (fun ph => ph == TaskPhase.refreshing)
        sys.tasks i _ TaskPhase.returnedEarly hg
      simp at hc
      constructor
      · show sys.cache.is_updating = true ↔ _
        simp only [refreshingCount]
        rw [hflag] at hu ⊢
        omega
      · simp only [refreshingCount]
        omega
    · rw [if_neg hu]
      have hc := countP_set_of_get (fun ph => ph == TaskPhase.refreshing)
        sys.tasks i _ TaskPhase.refreshing hg
      simp at hc
      have hz : sys.tasks.countP (fun ph => ph == TaskPhase.refreshing) = 0 := by
        have h2 : ¬sys.tasks.countP (fun ph => ph == TaskPhase.refreshing) = 1 :=
          fun hc1 => hu (hflag.mpr hc1)
        omega
      constructor
      · show (cacheStep sys.cache CacheEvent.beginUpdate).is_updating = true ↔ _
        simp only [cacheStep, if_neg hu, refreshingCount]
        constructor
        · intro _
          omega
        · intro _
          trivial
      · simp only [refreshingCount]
        omega
  | returnedEarly => exact h
  | refreshing =>
    have hc := countP_set_of_get (fun ph => ph == TaskPhase.refreshing)
      sys.tasks i _ TaskPhase.done hg
    simp at hc
    constructor
    · show (cacheStep sys.cache _).is_updating = true ↔ _
      simp only [cacheStep, refreshingCount]
      constructor
      · intro hfalse
        exact absurd hfalse (by decide)
      · intro hcnt
        omega
    · simp only [refreshingCount]
      omega
  | done => exact h

theorem SFInv.run (results : Nat → List (Nat × ProcMem)) (t dur : Rat) :
    ∀ (sched : List Nat) {sys : RefreshSystem}, SFInv sys →
      SFInv (runSystem results t dur sys sched)
  | [], _, h => h
  | i :: sched, _, h =>
    SFInv.run results t dur sched (SFInv.step results t dur h i)

/-- Claim C9: at most one refresh executes at any time — under every
interleaving of concurrent `update_cache` invocations at most one task is
ever in the parse phase; an invocation that observes `is_updating = true`
returns immediately with the cache unmodified and never enters the parse
phase; the metrics handler schedules a refresh only when no refresh is in
flight and the snapshot is at least 5 s old or absent; and it serves the
current snapshot as-is. -/
theorem C9_single_flight (results : Nat → List (Nat × ProcMem)) (t dur : Rat)
    (n : Nat) (sched : List Nat) :
    refreshingCount (runSystem results t dur (initSystem n) sched) ≤ 1 ∧
    (∀ sys i, sys.tasks.get? i = some TaskPhase.notStarted →
      sys.cache.is_updating = true →
      (taskStep results t dur sys i).cache = sys.cache ∧
      (taskStep results t dur sys i).tasks = sys.tasks.set i TaskPhase.returnedEarly) ∧
    (∀ c now, should_trigger_update c now = true ↔
      (c.is_updating = false ∧
        (c.last_updated = none ∨ ∃ t0, c.last_updated = some t0 ∧ 5 ≤ now - t0))) ∧
    (∀ c now, (metrics_handler_model c now).2 = c.processes) := by
  refine ⟨(SFInv.run results t dur sched (SFInv.init n)).at_most_one, ?_, ?_,
    fun c now => rfl⟩
  · intro sys i hg hu
    unfold taskStep
    rw [hg, if_pos hu]
    exact ⟨rfl, rfl⟩
  · intro c now
    unfold should_trigger_update
    rcases hl : c.last_updated with _ | t0
    · simp only [hl, Bool.and_true, Bool.not_eq_true']
      constructor
      · intro h1
        exact ⟨h1, Or.inl trivial⟩
      · intro h1
        exact h1.1
    · simp only [hl, Bool.and_eq_true, Bool.not_eq_true', decide_eq_true_eq]
      rw [Int.le_floor]
      constructor
      · rintro ⟨h1, h2⟩
        exact ⟨h1, Or.inr ⟨t0, rfl, by exact_mod_cast h2⟩⟩
      · rintro ⟨h1, h2 | ⟨t1, ht1, h5⟩⟩
        · exact absurd h2 (by simp)
        · obtain rfl : t0 = t1 := Option.some_inj.mp ht1
          exact ⟨h1, by exact_mod_cast h5⟩
